import Mathlib

/-!
Verification of the xz adapter layer (xz.go): a compressing Writer and a
decompressing Reader over an opaque lzma codec session, driven by the shared
pump routine runLzma.  The adapter code is embedded faithfully from xz.go.
The lzma codec engine itself lives in a sub-package outside the adapter
sources, so it is modelled from the specification's collaborator contract
(sections 3, 4.1 and 6 of the spec): an explicit session state with a
pending-input view, a pending-output buffer, a cumulative consumed-input
counter, a per-step action (Run/Finish) and result (Ok/StreamEnd/errors),
realised by a concrete invertible step function.
-/

set_option maxHeartbeats 1000000

namespace XZ

/-- Compression action passed to each codec step: run processes available
input without assuming end of stream, finish flushes the stream to its
canonical end marker (lzma.Run / lzma.Finish). -/
inductive Action
  | run
  | finish
deriving DecidableEq

/-- Result codes returned by a codec step (lzma.Return in the Go bindings).
ok and streamEnd are successes; the remaining variants are engine faults. -/
inductive Ret
  | ok
  | streamEnd
  | bufError
  | dataError
  | progError
deriving DecidableEq

/-- Ret.IsErr from the lzma bindings: every result other than Ok and
StreamEnd is an error variant. -/
def Ret.isErr : Ret → Bool
  | Ret.ok => false
  | Ret.streamEnd => false
  | _ => true

/-- Errors visible to the adapter layer: io.EOF, other I/O errors (indexed
by an arbitrary code), the LzmaError wrapper of xz.go carrying the offending
result, and a fuel sentinel for the pump driver loop (never produced with
adequate fuel; the lemmas below show the loop returns before fuel runs out
in every situation the theorems touch). -/
inductive GoErr
  | ioEOF
  | ioErr (code : Nat)
  | lzmaErr (r : Ret)
  | outOfFuel
deriving DecidableEq

/-- Session mode: encoding at a compression level, or decoding. -/
inductive Mode
  | encode (level : Nat)
  | decode
deriving DecidableEq

/-- Modelled from the spec: the lzma.Stream codec session (the lzma
sub-package is not part of the adapter sources).  Fields follow section 3 of
the spec: the pending-input view availIn, the produced-but-unread output
out, the cumulative consumed-input counter totalIn, and the initialization
mode.  sawTag and ended are the decoder's position inside the byte format.
released counts release() calls; per the spec release must be invoked at
most once and calling it twice is undefined in the engine, so the count is
kept to observe double release. -/
structure Stream where
  mode : Mode
  availIn : List Nat
  out : List Nat
  totalIn : Nat
  sawTag : Bool
  ended : Bool
  released : Nat
deriving DecidableEq

/-- Modelled from the spec: the engine's byte format, one concrete format
satisfying the spec contract (the spec leaves the container format to the
engine).  Every data byte b is framed as the two bytes 1, b and the stream
terminator is a single 0 byte, so the compressed form of B is
encBytes B ++ [0]: non-empty even for empty B, with an explicit terminator
whose absence is detectable (truncated streams fault on finish). -/
def encBytes : List Nat → List Nat
  | [] => []
  | b :: rest => 1 :: b :: encBytes rest

/-- Modelled from the spec: the decoder's step on a chunk of compressed
bytes, from a given position state.  sawTag records that a frame tag was
consumed and the data byte is still pending; a 0 in tag position is the
stream terminator (bytes after it are ignored).  Returns the decoded bytes,
the new tag state, and whether the terminator was reached. -/
def decodeRun : Bool → List Nat → List Nat × Bool × Bool
  | t, [] => ([], t, false)
  | true, b :: rest =>
    let r := decodeRun false rest
    (b :: r.1, r.2.1, r.2.2)
  | false, 0 :: _ => ([], false, true)
  | false, Nat.succ _ :: rest => decodeRun true rest

/-- Modelled from the spec: lzma.Code, one bounded step of the engine
(section 4.1 step(action)).  It consumes the pending input, appends to the
output buffer, advances the consumed-input counter, and returns a result
code: Ok/StreamEnd on success, an error variant on a flush of an
unterminated stream. -/
def code (s : Stream) (a : Action) : Stream × Ret :=
  match s.mode with
  | Mode.encode _ =>
    match a with
    | Action.run =>
      ({ s with availIn := [], out := s.out ++ encBytes s.availIn,
                totalIn := s.totalIn + s.availIn.length }, Ret.ok)
    | Action.finish =>
      ({ s with availIn := [], out := s.out ++ encBytes s.availIn ++ [0],
                totalIn := s.totalIn + s.availIn.length, ended := true }, Ret.streamEnd)
  | Mode.decode =>
    if s.ended then
      ({ s with availIn := [], totalIn := s.totalIn + s.availIn.length }, Ret.streamEnd)
    else
      let r := decodeRun s.sawTag s.availIn
      let s' := { s with
        availIn := [], out := s.out ++ r.1,
        totalIn := s.totalIn + s.availIn.length,
        sawTag := r.2.1, ended := r.2.2 }
      match a with
      | Action.run => (s', if r.2.2 then Ret.streamEnd else Ret.ok)
      | Action.finish => (s', if r.2.2 then Ret.streamEnd else Ret.bufError)

/-- lzma.Stream.SetInput: replaces the session's pending-input view. -/
def Stream.SetInput (s : Stream) (p : List Nat) : Stream :=
  { s with availIn := p }

/-- lzma.Stream.AvailIn: count of unconsumed input bytes. -/
def Stream.AvailIn (s : Stream) : Nat := s.availIn.length

/-- lzma.Stream.TotalIn: cumulative count of input bytes ever consumed. -/
def Stream.TotalIn (s : Stream) : Nat := s.totalIn

/-- lzma.Stream.Output: returns and clears the produced output bytes
(take_output in the spec). -/
def Stream.Output (s : Stream) : List Nat × Stream :=
  (s.out, { s with out := [] })

/-- Modelled from the spec: lzma.Stream.Close, the engine's release().
The release count is incremented on every call; the spec makes a second
call undefined, so the model just counts. -/
def Stream.Close (s : Stream) : Stream :=
  { s with released := s.released + 1 }

/-- lzma.NewStream: a fresh session before encoder/decoder initialization. -/
def NewStream : Stream :=
  { mode := Mode.decode, availIn := [], out := [], totalIn := 0,
    sawTag := false, ended := false, released := 0 }

/-- lzma.EasyEncoder: initializes the session for encoding at a level. -/
def EasyEncoder (s : Stream) (level : Nat) : Stream × Ret :=
  ({ s with mode := Mode.encode level }, Ret.ok)

/-- lzma.StreamDecoder: initializes the session for decoding. -/
def StreamDecoder (s : Stream) : Stream × Ret :=
  ({ s with mode := Mode.decode }, Ret.ok)

/-- The downstream sink collaborator (io.Writer): accepted bytes so far plus
a response script deciding whether each successive write call fails.  An
exhausted script means every further write succeeds, so the script [] is
the always-successful sink (in particular bytes.Buffer, which never
errors). -/
structure Sink where
  bytes : List Nat
  errs : List (Option GoErr)
deriving DecidableEq

/-- One write call on the sink: returns the new sink state, the byte count
and the error, per the io.Writer contract. -/
def Sink.write (snk : Sink) (p : List Nat) : Sink × Nat × Option GoErr :=
  match snk.errs with
  | [] => ({ snk with bytes := snk.bytes ++ p }, p.length, none)
  | none :: rest => ({ bytes := snk.bytes ++ p, errs := rest }, p.length, none)
  | some e :: rest => ({ snk with errs := rest }, 0, some e)

/-- The upstream source collaborator (io.Reader): a queue of pending events,
each a chunk of bytes together with the error reported once that chunk is
exhausted.  log records the size of every read request issued to the source
(ghost instrumentation; it never influences behavior). -/
structure Source where
  events : List (List Nat × Option GoErr)
  log : List Nat
deriving DecidableEq

/-- One read call on the source with a buffer of the given size: delivers up
to that many bytes from the front event; the event's error is reported only
when the chunk fits entirely, otherwise the rest is kept for later calls.
An exhausted source reports io.EOF forever. -/
def Source.read (src : Source) (size : Nat) : List Nat × Option GoErr × Source :=
  let log' := src.log ++ [size]
  match src.events with
  | [] => ([], some GoErr.ioEOF, { src with log := log' })
  | (bs, e) :: rest =>
    if bs.length ≤ size then (bs, e, { events := rest, log := log' })
    else (bs.take size, none, { events := (bs.drop size, e) :: rest, log := log' })

/-- bytes.Buffer.Read: drains up to L bytes from the front of the buffer;
an empty buffer reports io.EOF unless the request is empty. -/
def bufRead (buf : List Nat) (L : Nat) : List Nat × List Nat × Option GoErr :=
  if buf = [] then ([], [], if L = 0 then none else some GoErr.ioEOF)
  else (buf.take L, buf.drop L, none)

/-- The outcome of one pump run: final session, final sink, error, and the
trace of codec step invocations performed, each recorded with its action and
the pending-input count at the moment of the call (ghost instrumentation;
it never influences behavior). -/
structure PumpRes where
  stream : Stream
  sink : Sink
  err : Option GoErr
  steps : List (Action × Nat)
deriving DecidableEq

/-- The loop body of runLzma from xz.go, with explicit fuel: while the
action is Run and the input buffer is empty, either return (no finish) or
transition to Finish; invoke lzma.Code; write the taken output to the sink,
failing the pump on a sink error; stop successfully when a Finish step
reports StreamEnd; fail on an error result; otherwise continue. -/
def runLzmaAux (finish : Bool) : Nat → Action → Stream → Sink → PumpRes
  | 0, _, s, snk => ⟨s, snk, some GoErr.outOfFuel, []⟩
  | fuel + 1, action₀, s, snk =>
    if action₀ = Action.run ∧ s.AvailIn = 0 ∧ finish = false then
      ⟨s, snk, none, []⟩
    else
      let action := if action₀ = Action.run ∧ s.AvailIn = 0 then Action.finish else action₀
      let pending := s.AvailIn
      let step := code s action
      let outp := step.1.Output
      let w := snk.write outp.1
      match w.2.2 with
      | some e => ⟨outp.2, w.1, some e, [(action, pending)]⟩
      | none =>
        if action = Action.finish ∧ step.2 = Ret.streamEnd then
          ⟨outp.2, w.1, none, [(action, pending)]⟩
        else if step.2.isErr then
          ⟨outp.2, w.1, some (GoErr.lzmaErr step.2), [(action, pending)]⟩
        else
          let r := runLzmaAux finish fuel action outp.2 w.1
          ⟨r.stream, r.sink, r.err, (action, pending) :: r.steps⟩

/-- runLzma from xz.go: drives the codec session, forwarding all produced
output to the sink, until the pending input is exhausted (finish false) or
the stream is fully flushed (finish true).  The fuel is sufficient for the
modelled engine, whose Run step always drains the pending input. -/
def runLzma (s : Stream) (snk : Sink) (finish : Bool) : PumpRes :=
  runLzmaAux finish (s.availIn.length + 4) Action.run s snk

/-- Writer from xz.go: an io.WriteCloser that xz-compresses its input and
writes it to an underlying sink.  lastErr is declared by the source but
never read or written by Write or Close. -/
structure Writer where
  lzmaStream : Stream
  w : Sink
  lastErr : Option GoErr
deriving DecidableEq

/-- BestSpeed from xz.go. -/
def BestSpeed : Int := 0

/-- BestCompression from xz.go. -/
def BestCompression : Int := 9

/-- DefaultCompression from xz.go. -/
def DefaultCompression : Int := 6

/-- NewWriterLevel from xz.go: clamps the level into [0, 9] and initializes
an encoding session over the given sink. -/
def NewWriterLevel (w : Sink) (level : Int) : Writer :=
  let l₁ := if level < BestSpeed then BestSpeed else level
  let l₂ := if l₁ > BestCompression then BestCompression else l₁
  { lzmaStream := (EasyEncoder NewStream l₂.toNat).1, w := w, lastErr := none }

/-- NewWriter from xz.go: NewWriterLevel at DefaultCompression. -/
def NewWriter (w : Sink) : Writer :=
  NewWriterLevel w DefaultCompression

/-- Writer.Write from xz.go: installs p as the session's pending input,
records TotalIn before and after a non-finishing pump run, and returns the
consumed-byte delta together with the pump's error. -/
def Writer.Write (z : Writer) (p : List Nat) : Nat × Option GoErr × Writer :=
  let s₀ := z.lzmaStream.SetInput p
  let start := s₀.TotalIn
  let r := runLzma s₀ z.w false
  (r.stream.TotalIn - start, r.err, { z with lzmaStream := r.stream, w := r.sink })

/-- Writer.Close from xz.go: a finishing pump run, then an unconditional
release of the session; returns the pump's error. -/
def Writer.Close (z : Writer) : Option GoErr × Writer :=
  let r := runLzma z.lzmaStream z.w true
  (r.err, { z with lzmaStream := r.stream.Close, w := r.sink })

/-- Reader from xz.go: an io.ReadCloser that xz-decompresses from an
upstream source, holding decompressed bytes not yet delivered in buf, the
sticky upstream-exhaustion flag, and the sticky first error. -/
structure Reader where
  lzmaStream : Stream
  r : Source
  buf : List Nat
  inputFinished : Bool
  lastErr : Option GoErr
deriving DecidableEq

/-- NewReader from xz.go: initializes a decoding session over the source. -/
def NewReader (r : Source) : Reader :=
  { lzmaStream := (StreamDecoder NewStream).1, r := r, buf := [],
    inputFinished := false, lastErr := none }

/-- Reader.populateBuffer from xz.go: a no-op once upstream is exhausted;
otherwise reads up to sizeHint bytes from upstream, returns any non-EOF
upstream error immediately (before touching the session), latches EOF into
inputFinished, feeds the bytes read to the session and pumps the decoded
output into the internal buffer, finishing when upstream is exhausted. -/
def populateBuffer (z : Reader) (sizeHint : Nat) : Option GoErr × Reader :=
  if z.inputFinished then (none, z)
  else
    let rd := z.r.read sizeHint
    if rd.2.1 ≠ none ∧ rd.2.1 ≠ some GoErr.ioEOF then
      (rd.2.1, { z with r := rd.2.2 })
    else
      let inputFinished := if rd.2.1 = some GoErr.ioEOF then true else z.inputFinished
      let s := z.lzmaStream.SetInput rd.1
      let pr := runLzma s ⟨z.buf, []⟩ inputFinished
      (pr.err, { z with
        r := rd.2.2, lzmaStream := pr.stream, buf := pr.sink.bytes,
        inputFinished := inputFinished })

/-- Reader.Read from xz.go: an empty request is a no-op; a latched error is
replayed; otherwise the internal buffer is refilled from upstream when it
holds fewer than L bytes, and up to L bytes are drained from it, with the
drain's error (in particular io.EOF on an empty buffer) latched. -/
def Reader.Read (z : Reader) (L : Nat) : List Nat × Option GoErr × Reader :=
  if L = 0 then ([], none, z)
  else
    match z.lastErr with
    | some e => ([], some e, z)
    | none =>
      let drain := fun (z : Reader) =>
        let br := bufRead z.buf L
        (br.1, br.2.2, { z with buf := br.2.1, lastErr := br.2.2 })
      if z.buf.length < L then
        let pb := populateBuffer z L
        match pb.1 with
        | some e => ([], some e, { pb.2 with lastErr := some e })
        | none => drain { pb.2 with lastErr := none }
      else drain z

/-- Reader.Close from xz.go: releases the session unconditionally and
always succeeds. -/
def Reader.Close (z : Reader) : Option GoErr × Reader :=
  (none, { z with lzmaStream := z.lzmaStream.Close })

/-- Drives a Writer through a sequence of Write calls, one per chunk. -/
def writeList (z : Writer) (chunks : List (List Nat)) : Writer :=
  match chunks with
  | [] => z
  | c :: rest => writeList (z.Write c).2.2 rest

/-- Reads from a Reader with a fixed request size until a read reports an
error (in particular io.EOF at end of stream), concatenating the bytes
delivered. -/
def readAll : Nat → Reader → Nat → List Nat × Option GoErr
  | 0, _, _ => ([], none)
  | fuel + 1, z, L =>
    let r := z.Read L
    match r.2.1 with
    | some e => (r.1, some e)
    | none =>
      let rest := readAll fuel r.2.2 L
      (r.1 ++ rest.1, rest.2)

/-- The decoder-representation invariant: position state t with remaining
compressed bytes rem stands for the still-undecoded byte sequence Brest. -/
def RemRepr (t : Bool) (rem Brest : List Nat) : Prop :=
  (t = false ∧ rem = encBytes Brest ++ [0]) ∨
  (t = true ∧ ∃ b B', Brest = b :: B' ∧ rem = b :: encBytes B' ++ [0])

/-- The Reader invariant maintained across Read calls during a round trip:
no latched error, an idle decode session with drained output, and either
the source and decoder position jointly stand for the still-undecoded
suffix Brest of the original input, or the terminator has been consumed
(with the upstream EOF not yet, or already, observed). -/
def RInv (z : Reader) (Brest : List Nat) : Prop :=
  z.lastErr = none ∧ z.lzmaStream.mode = Mode.decode ∧
  z.lzmaStream.availIn = [] ∧ z.lzmaStream.out = [] ∧
  ((z.inputFinished = false ∧ z.lzmaStream.ended = false ∧
     ∃ rem, z.r.events = [(rem, none)] ∧ RemRepr z.lzmaStream.sawTag rem Brest) ∨
   (z.lzmaStream.ended = true ∧ Brest = [] ∧ z.r.events = [] ∧ z.inputFinished = false) ∨
   (z.lzmaStream.ended = true ∧ Brest = [] ∧ z.r.events = [] ∧ z.inputFinished = true))

/-! ### Basic lemmas about the pump and the collaborators -/

theorem runLzma_eq_aux (s : Stream) (snk : Sink) (finish : Bool) :
    runLzma s snk finish = runLzmaAux finish (s.availIn.length + 3 + 1) Action.run s snk :=
  rfl

theorem code_released (s : Stream) (a : Action) : (code s a).1.released = s.released := by
  rcases s with ⟨m, ai, o, t, tg, en, rel⟩
  cases m <;> cases a <;> simp [code] <;> split <;> simp

theorem Output_released (s : Stream) : s.Output.2.released = s.released := rfl

theorem runLzmaAux_released (finish : Bool) :
    ∀ (fuel : Nat) (a : Action) (s : Stream) (snk : Sink),
      (runLzmaAux finish fuel a s snk).stream.released = s.released := by
  intro fuel
  induction fuel with
  | zero => intro a s snk; simp [runLzmaAux]
  | succ n ih =>
    intro a s snk
    simp only [runLzmaAux]
    repeat' split
    all_goals simp [ih, Output_released, code_released]

theorem runLzma_released (s : Stream) (snk : Sink) (finish : Bool) :
    (runLzma s snk finish).stream.released = s.released := by
  rw [runLzma_eq_aux]; exact runLzmaAux_released finish _ _ _ _

theorem populate_released (z : Reader) (sizeHint : Nat) :
    ((populateBuffer z sizeHint).2).lzmaStream.released = z.lzmaStream.released := by
  simp only [populateBuffer]
  split
  · rfl
  · split
    · rfl
    · exact runLzma_released _ _ _

/-! ### C7: zero-length read is a complete no-op -/

/-- C7: for every Reader state, including one with a latched error, a read
with a zero-length buffer returns (0, nil), performs no upstream read, does
not invoke the codec, and leaves the Reader state unchanged. -/
theorem read_zero_len (z : Reader) : z.Read 0 = ([], none, z) := by
  simp [Reader.Read]

/-- C7 applied at a concrete Reader with a latched error and pending
upstream data: the zero-length read is still an identity no-op. -/
theorem read_zero_len_witness :
    Reader.Read
      { lzmaStream := (StreamDecoder NewStream).1,
        r := { events := [([1, 5], none)], log := [] }, buf := [3],
        inputFinished := false, lastErr := some (GoErr.ioErr 9) } 0 =
    ([], none,
      { lzmaStream := (StreamDecoder NewStream).1,
        r := { events := [([1, 5], none)], log := [] }, buf := [3],
        inputFinished := false, lastErr := some (GoErr.ioErr 9) }) :=
  read_zero_len _

/-! ### C2: the Writer does not latch errors (its lastErr field is dead) -/

/-- C2 is violated by the Writer: over a sink whose first write fails with
an I/O error, the first Write reports the error, yet the very next Write on
the same Writer re-invokes the codec engine (the cumulative consumed-input
counter grows to 2 and the compressed frame of the second byte reaches the
sink) and returns nil instead of replaying the latched error. -/
theorem writer_error_not_latched :
    (Writer.Write (NewWriterLevel ⟨[], [some (GoErr.ioErr 7)]⟩ 6) [5]).2.1 =
        some (GoErr.ioErr 7) ∧
    (Writer.Write (Writer.Write (NewWriterLevel ⟨[], [some (GoErr.ioErr 7)]⟩ 6) [5]).2.2
        [6]).2.1 = none ∧
    (Writer.Write (Writer.Write (NewWriterLevel ⟨[], [some (GoErr.ioErr 7)]⟩ 6) [5]).2.2
        [6]).2.2.lzmaStream.totalIn = 2 ∧
    (Writer.Write (Writer.Write (NewWriterLevel ⟨[], [some (GoErr.ioErr 7)]⟩ 6) [5]).2.2
        [6]).2.2.w.bytes = [1, 6] := by
  decide

/-! ### C3: close releases the session once per call, not at most once ever -/

/-- C3 as stated is false: closing a Writer twice, or a Reader twice,
invokes the session release twice. -/
theorem double_close_releases_twice :
    ((Writer.Close (Writer.Close (NewWriterLevel ⟨[], []⟩ 6)).2).2).lzmaStream.released = 2 ∧
    ((Reader.Close (Reader.Close (NewReader ⟨[], []⟩)).2).2).lzmaStream.released = 2 := by
  decide

/-- C3 amended: each Close call releases the session exactly once and no
other operation releases it, so across any sequence of operations
containing at most one Close the release is invoked at most once; the
adapters do not guard against a second Close. -/
theorem close_releases_once :
    (∀ (z : Writer) (p : List Nat),
        ((z.Write p).2.2).lzmaStream.released = z.lzmaStream.released) ∧
    (∀ z : Writer, ((z.Close).2).lzmaStream.released = z.lzmaStream.released + 1) ∧
    (∀ (z : Reader) (L : Nat),
        ((z.Read L).2.2).lzmaStream.released = z.lzmaStream.released) ∧
    (∀ z : Reader, ((z.Close).2).lzmaStream.released = z.lzmaStream.released + 1) := by
  refine ⟨?_, ?_, ?_, ?_⟩
  · intro z p
    simpa [Writer.Write] using runLzma_released (z.lzmaStream.SetInput p) z.w false
  · intro z
    simp [Writer.Close, Stream.Close]
    rw [runLzma_released]
  · intro z L
    simp only [Reader.Read]
    split
    · rfl
    · split
      · rfl
      · split
        · split
          · simpa using populate_released z L
          · simpa using populate_released z L
        · rfl
  · intro z
    simp [Reader.Close, Stream.Close]

/-! ### C9: a partial upstream read with a real error is discarded -/

/-- C9: when the upstream source returns bytes together with a non-EOF
error, populateBuffer returns that error without feeding the bytes to the
codec session: the session, the internal buffer and the input-finished flag
are unchanged, and only the source (which advanced past the failed read)
differs. -/
theorem populate_error_discards (z : Reader) (hint : Nat) (bs : List Nat) (e : GoErr)
    (rest : List (List Nat × Option GoErr))
    (hfin : z.inputFinished = false) (hev : z.r.events = (bs, some e) :: rest)
    (hlen : bs.length ≤ hint) (_hbs : bs ≠ []) (heof : e ≠ GoErr.ioEOF) :
    populateBuffer z hint =
      (some e, { z with r := { events := rest, log := z.r.log ++ [hint] } }) := by
  simp only [populateBuffer, Source.read, hfin, hev]
  simp [hlen, heof]

/-- C9 applied at a concrete Reader whose source delivers two bytes together
with a non-EOF I/O error: the error is returned and the two bytes never
reach the session or the internal buffer. -/
theorem populate_error_discards_witness :
    populateBuffer (NewReader ⟨[([9, 9], some (GoErr.ioErr 3))], []⟩) 5 =
      (some (GoErr.ioErr 3),
        { NewReader ⟨[([9, 9], some (GoErr.ioErr 3))], []⟩ with
          r := { events := [], log := [5] } }) :=
  populate_error_discards _ 5 [9, 9] (GoErr.ioErr 3) [] rfl rfl (by decide) (by decide)
    (by decide)

/-! ### C10: at most one upstream read per Read call -/

theorem source_read_log (src : Source) (L : Nat) :
    ((src.read L).2.2).log = src.log ++ [L] := by
  simp only [Source.read]
  cases src.events with
  | nil => rfl
  | cons h t =>
    rcases h with ⟨bs, e⟩
    by_cases hb : bs.length ≤ L <;> simp [hb]

theorem populate_log (z : Reader) (h : Nat) :
    ((populateBuffer z h).2).r.log =
      if z.inputFinished = true then z.r.log else z.r.log ++ [h] := by
  simp only [populateBuffer]
  split
  · simp [*]
  · split
    · simp [*, source_read_log]
    · simp [*, source_read_log]

/-- C10: a Read call with a non-empty buffer and no latched error issues at
most one upstream read, with a request of exactly L bytes, and exactly when
the internal buffer holds fewer than L bytes and upstream is not exhausted;
the bytes delivered never exceed L (and may fall short of it). -/
theorem read_single_upstream_call (z : Reader) (L : Nat) (hL : 0 < L)
    (hne : z.lastErr = none) :
    ((z.Read L).2.2).r.log =
      (if z.buf.length < L ∧ z.inputFinished = false then z.r.log ++ [L] else z.r.log) ∧
    (z.Read L).1.length ≤ L := by
  have hL0 : ¬(L = 0) := by omega
  simp only [Reader.Read, hL0, if_false, hne]
  split
  · rename_i hlt
    constructor
    · split
      · cases hfin : z.inputFinished <;>
          simp [populate_log, hfin, hlt]
      · cases hfin : z.inputFinished <;>
          simp [populate_log, hfin, hlt]
    · split
      · simp
      · simp only [bufRead]
        split
        · simp
        · simp
  · rename_i hge
    constructor
    · have : ¬(z.buf.length < L ∧ z.inputFinished = false) := by
        rintro ⟨hl, -⟩; exact hge hl
      simp [this]
    · simp only [bufRead]
      split
      · simp
      · simp

/-- C10 applied at a concrete Reader: one upstream read of exactly the
request size is issued, and the call returns fewer bytes than requested
even though more compressed data remains upstream. -/
theorem read_single_upstream_call_witness :
    (((Reader.Read
        { lzmaStream := (StreamDecoder NewStream).1,
          r := { events := [([1, 5, 1, 6, 1, 7], none)], log := [] }, buf := [7],
          inputFinished := false, lastErr := none } 5).2.2).r.log =
      (if ({ lzmaStream := (StreamDecoder NewStream).1,
             r := { events := [([1, 5, 1, 6, 1, 7], none)], log := [] }, buf := [7],
             inputFinished := false, lastErr := none } : Reader).buf.length < 5 ∧
           ({ lzmaStream := (StreamDecoder NewStream).1,
              r := { events := [([1, 5, 1, 6, 1, 7], none)], log := [] }, buf := [7],
              inputFinished := false, lastErr := none } : Reader).inputFinished = false
       then [5] else []) ∧
     (Reader.Read
        { lzmaStream := (StreamDecoder NewStream).1,
          r := { events := [([1, 5, 1, 6, 1, 7], none)], log := [] }, buf := [7],
          inputFinished := false, lastErr := none } 5).1.length ≤ 5) ∧
    ((Reader.Read
        { lzmaStream := (StreamDecoder NewStream).1,
          r := { events := [([1, 5, 1, 6, 1, 7], none)], log := [] }, buf := [7],
          inputFinished := false, lastErr := none } 5).1.length < 5 ∧
     ((Reader.Read
        { lzmaStream := (StreamDecoder NewStream).1,
          r := { events := [([1, 5, 1, 6, 1, 7], none)], log := [] }, buf := [7],
          inputFinished := false, lastErr := none } 5).2.2).r.events ≠ []) :=
  ⟨read_single_upstream_call _ 5 (by decide) rfl, by decide⟩

/-! ### C8: end of stream latches io.EOF -/

/-- C8: once upstream is exhausted and the internal buffer is empty, a Read
with a non-empty buffer returns (0, io.EOF), stores io.EOF in the sticky
latch, and every subsequent non-empty Read returns (0, io.EOF) from the
latch with the Reader state (source and session included) untouched. -/
theorem read_eof_latched (z : Reader) (L L' : Nat)
    (h1 : z.inputFinished = true) (h2 : z.buf = []) (h3 : z.lastErr = none)
    (hL : 0 < L) (hL' : 0 < L') :
    z.Read L = ([], some GoErr.ioEOF, { z with lastErr := some GoErr.ioEOF }) ∧
    Reader.Read { z with lastErr := some GoErr.ioEOF } L' =
      ([], some GoErr.ioEOF, { z with lastErr := some GoErr.ioEOF }) := by
  have hL0 : ¬(L = 0) := by omega
  have hL0' : ¬(L' = 0) := by omega
  obtain ⟨s, src, buf, fin, le⟩ := z
  simp only at h1 h2 h3
  subst h1 h2 h3
  constructor
  · simp [Reader.Read, populateBuffer, bufRead, hL0, hL]
  · simp [Reader.Read, hL0']

/-- C8 applied at a concrete exhausted Reader. -/
theorem read_eof_latched_witness :
    Reader.Read
      { lzmaStream := (StreamDecoder NewStream).1, r := { events := [], log := [] },
        buf := [], inputFinished := true, lastErr := none } 3 =
      ([], some GoErr.ioEOF,
        { lzmaStream := (StreamDecoder NewStream).1, r := { events := [], log := [] },
          buf := [], inputFinished := true, lastErr := some GoErr.ioEOF }) ∧
    Reader.Read
      { lzmaStream := (StreamDecoder NewStream).1, r := { events := [], log := [] },
        buf := [], inputFinished := true, lastErr := some GoErr.ioEOF } 5 =
      ([], some GoErr.ioEOF,
        { lzmaStream := (StreamDecoder NewStream).1, r := { events := [], log := [] },
          buf := [], inputFinished := true, lastErr := some GoErr.ioEOF }) :=
  read_eof_latched _ 3 5 rfl rfl rfl (by decide) (by decide)

/-! ### C5: the sink write happens first and its failure takes precedence -/

theorem pump_sink_fail_aux (finish : Bool) (fuel : Nat) (a : Action) (s : Stream)
    (bs : List Nat) (e : GoErr) (rest : List (Option GoErr))
    (h : ¬(a = Action.run ∧ s.availIn = [] ∧ finish = false)) :
    runLzmaAux finish (fuel + 1) a s ⟨bs, some e :: rest⟩ =
      ⟨(code s (if a = Action.run ∧ s.AvailIn = 0 then Action.finish else a)).1.Output.2,
       ⟨bs, rest⟩, some e,
       [((if a = Action.run ∧ s.AvailIn = 0 then Action.finish else a), s.AvailIn)]⟩ := by
  have h' : ¬(a = Action.run ∧ s.AvailIn = 0 ∧ finish = false) := by
    simpa [Stream.AvailIn, List.length_eq_zero] using h
  simp only [runLzmaAux]
  simp [h', Sink.write]

/-- C5: in every pump iteration that performs a codec step, the produced
output is handed to the sink before the step's result is inspected, so a
sink whose next write fails makes the pump stop after exactly that one step
and report the sink's I/O error, whatever result code (error and stream-end
included) the step returned. -/
theorem pump_sink_error_first (s : Stream) (finish : Bool) (e : GoErr)
    (bs : List Nat) (rest : List (Option GoErr))
    (h : s.availIn = [] → finish = true) :
    (runLzma s ⟨bs, some e :: rest⟩ finish).err = some e ∧
    (runLzma s ⟨bs, some e :: rest⟩ finish).steps.length = 1 := by
  rw [runLzma_eq_aux, pump_sink_fail_aux]
  · exact ⟨rfl, rfl⟩
  · rintro ⟨-, hempty, hfin⟩
    rw [h hempty] at hfin
    simp at hfin

/-- C5 applied at a session whose Finish step reports an error result
(a truncated decode stream) while the sink write fails: the sink's I/O
error is the one reported. -/
theorem pump_sink_error_first_witness :
    (runLzma ⟨Mode.decode, [], [], 0, false, false, 0⟩
        ⟨[], [some (GoErr.ioErr 4)]⟩ true).err = some (GoErr.ioErr 4) ∧
    (runLzma ⟨Mode.decode, [], [], 0, false, false, 0⟩
        ⟨[], [some (GoErr.ioErr 4)]⟩ true).steps.length = 1 :=
  pump_sink_error_first _ true (GoErr.ioErr 4) [] [] (fun _ => rfl)

/-! ### C6: no Run step is ever invoked on empty pending input -/

theorem pump_steps_run_pos (finish : Bool) :
    ∀ (fuel : Nat) (a : Action) (s : Stream) (snk : Sink) (pr : Action × Nat),
      pr ∈ (runLzmaAux finish fuel a s snk).steps → pr.1 = Action.run → 0 < pr.2 := by
  intro fuel
  induction fuel with
  | zero => intro a s snk pr hmem; simp [runLzmaAux] at hmem
  | succ n ih =>
    intro a s snk pr hmem hrun
    obtain ⟨pa, pk⟩ := pr
    have hheadA : (pa, pk) = (a, s.AvailIn) →
        ¬(a = Action.run ∧ s.AvailIn = 0) → 0 < (pa, pk).2 := by
      intro hq hn
      injection hq with h1 h2
      subst h1
      subst h2
      rcases Nat.eq_zero_or_pos s.AvailIn with hz | hp
      · exact absurd ⟨hrun, hz⟩ hn
      · exact hp
    have hheadF : (pa, pk) = (Action.finish, s.AvailIn) → 0 < (pa, pk).2 := by
      intro hq
      injection hq with h1 h2
      subst h1
      exact Action.noConfusion hrun
    simp only [runLzmaAux] at hmem
    split at hmem
    · simp at hmem
    · repeat' split at hmem
      all_goals rcases List.mem_cons.mp hmem with h | h
      all_goals
        first
          | exact ih _ _ _ _ h hrun
          | exact hheadF h
          | exact hheadA h ‹¬(a = Action.run ∧ s.AvailIn = 0)›
          | simp at h

/-- C6: the pump never invokes the codec step with action Run while the
session's pending input is empty: every step recorded in a pump run's trace
with action Run was invoked with a positive pending-input count. -/
theorem pump_never_runs_on_empty (s : Stream) (snk : Sink) (finish : Bool)
    (pr : Action × Nat) (hmem : pr ∈ (runLzma s snk finish).steps)
    (hrun : pr.1 = Action.run) : 0 < pr.2 := by
  rw [runLzma_eq_aux] at hmem
  exact pump_steps_run_pos finish _ Action.run s snk pr hmem hrun

/-- C6 applied at a concrete pump run whose trace contains a Run step. -/
theorem pump_never_runs_on_empty_witness : 0 < 1 :=
  pump_never_runs_on_empty ⟨Mode.encode 6, [3], [], 0, false, false, 0⟩ ⟨[], []⟩ false
    (Action.run, 1) (by decide) rfl

/-! ### C4: Write returns the consumed-input delta, all of p on success -/

theorem Output_availIn (s : Stream) : s.Output.2.availIn = s.availIn := rfl

theorem Output_totalIn (s : Stream) : s.Output.2.totalIn = s.totalIn := rfl

theorem code_run_consumes (s : Stream) :
    (code s Action.run).1.availIn = [] ∧
    (code s Action.run).1.totalIn = s.totalIn + s.availIn.length ∧
    (code s Action.run).2.isErr = false := by
  rcases s with ⟨m, ai, o, t, tg, en, rel⟩
  cases m with
  | encode lvl => simp [code, Ret.isErr]
  | decode =>
    simp only [code]
    split
    · simp [Ret.isErr]
    · cases hdr : (decodeRun tg ai).2.2 <;> simp [Ret.isErr, hdr]

theorem runLzmaAux_run_totalIn (fuel : Nat) :
    ∀ (s : Stream) (snk : Sink),
      (runLzmaAux false fuel Action.run s snk).err = none →
      (runLzmaAux false fuel Action.run s snk).stream.totalIn
        = s.totalIn + s.availIn.length := by
  induction fuel with
  | zero => intro s snk herr; simp [runLzmaAux] at herr
  | succ n ih =>
    intro s snk herr
    by_cases hai : s.availIn = []
    · simp [runLzmaAux, Stream.AvailIn, hai]
    · have hc := code_run_consumes s
      have hz : ¬ s.AvailIn = 0 := by
        simp [Stream.AvailIn, List.length_eq_zero, hai]
      simp only [runLzmaAux, hz, eq_self_iff_true, true_and, and_true, false_and,
        and_false, if_false, if_true] at herr ⊢
      split at herr
      · simp at herr
      · have hAF : ¬(Action.run = Action.finish ∧ (code s Action.run).2 = Ret.streamEnd) := by
          rintro ⟨hx, -⟩; exact Action.noConfusion hx
        have hIE : ¬((code s Action.run).2.isErr = true) := by simp [hc.2.2]
        rw [if_neg hAF, if_neg hIE] at herr ⊢
        simp only at herr ⊢
        have := ih ((code s Action.run).1.Output.2)
          ((snk.write (code s Action.run).1.Output.1).1) (by simpa using herr)
        simpa [Output_availIn, Output_totalIn, hc.1, hc.2.1] using this

theorem runLzma_nofinish_totalIn (s : Stream) (snk : Sink)
    (herr : (runLzma s snk false).err = none) :
    (runLzma s snk false).stream.totalIn = s.totalIn + s.availIn.length := by
  rw [runLzma_eq_aux] at herr ⊢
  exact runLzmaAux_run_totalIn _ s snk herr

/-- C4: Writer.Write returns the difference of the session's cumulative
consumed-input counter taken after and before the pump run, and whenever it
returns a nil error that count equals the length of p, because the
non-finishing pump stops only once the pending input is exhausted. -/
theorem write_consumed_delta (z : Writer) (p : List Nat) :
    (z.Write p).1 = ((z.Write p).2.2).lzmaStream.totalIn - z.lzmaStream.totalIn ∧
    ((z.Write p).2.1 = none → (z.Write p).1 = p.length) := by
  refine ⟨rfl, fun herr => ?_⟩
  have h := runLzma_nofinish_totalIn (z.lzmaStream.SetInput p) z.w herr
  show (runLzma (z.lzmaStream.SetInput p) z.w false).stream.TotalIn
      - (z.lzmaStream.SetInput p).TotalIn = p.length
  rw [Stream.TotalIn, Stream.TotalIn, h]
  simp [Stream.SetInput]

/-- C4 applied at a concrete Writer: a successful two-byte write reports
both bytes as consumed. -/
theorem write_consumed_delta_witness :
    (Writer.Write (NewWriter ⟨[], []⟩) [5, 6]).1 = [5, 6].length :=
  (write_consumed_delta (NewWriter ⟨[], []⟩) [5, 6]).2 (by decide)

/-! ### C1: round trip.  Encode side: the compressed form of the chunks. -/

theorem encBytes_append (a b : List Nat) :
    encBytes (a ++ b) = encBytes a ++ encBytes b := by
  induction a with
  | nil => simp [encBytes]
  | cons x xs ih => simp [encBytes, ih]

theorem Write_encode (lvl t rel : Nat) (tg en : Bool) (acc p : List Nat)
    (le : Option GoErr) :
    Writer.Write ⟨⟨Mode.encode lvl, [], [], t, tg, en, rel⟩, ⟨acc, []⟩, le⟩ p
      = (p.length, none,
         ⟨⟨Mode.encode lvl, [], [], t + p.length, tg, en, rel⟩,
          ⟨acc ++ encBytes p, []⟩, le⟩) := by
  cases p with
  | nil =>
    simp [Writer.Write, runLzma_eq_aux, runLzmaAux, Stream.SetInput, Stream.AvailIn,
          Stream.TotalIn, encBytes]
  | cons q qs =>
    simp [Writer.Write, runLzma_eq_aux, runLzmaAux, Stream.SetInput, Stream.AvailIn,
          Stream.TotalIn, code, Stream.Output, Sink.write, Ret.isErr, encBytes]

theorem writeList_encode (lvl rel : Nat) (tg en : Bool) (le : Option GoErr) :
    ∀ (chunks : List (List Nat)) (t : Nat) (acc : List Nat),
      writeList ⟨⟨Mode.encode lvl, [], [], t, tg, en, rel⟩, ⟨acc, []⟩, le⟩ chunks
        = ⟨⟨Mode.encode lvl, [], [], t + chunks.flatten.length, tg, en, rel⟩,
           ⟨acc ++ encBytes chunks.flatten, []⟩, le⟩ := by
  intro chunks
  induction chunks with
  | nil => intro t acc; simp [writeList, encBytes]
  | cons c cs ih =>
    intro t acc
    simp only [writeList, Write_encode]
    rw [ih]
    simp [encBytes_append, Nat.add_assoc]

theorem Close_encode (lvl t rel : Nat) (tg en : Bool) (acc : List Nat)
    (le : Option GoErr) :
    Writer.Close ⟨⟨Mode.encode lvl, [], [], t, tg, en, rel⟩, ⟨acc, []⟩, le⟩
      = (none, ⟨⟨Mode.encode lvl, [], [], t, tg, true, rel + 1⟩,
         ⟨acc ++ [0], []⟩, le⟩) := by
  simp [Writer.Close, runLzma_eq_aux, runLzmaAux, Stream.AvailIn, code,
        Stream.Output, Sink.write, Stream.Close, encBytes]

/-! ### C1: round trip.  Decode side: pump behavior on the decoder. -/

theorem runLzma_decode_run (t : Bool) (bs buf : List Nat) (tt rel : Nat)
    (hbs : bs ≠ []) :
    runLzma ⟨Mode.decode, bs, [], tt, t, false, rel⟩ ⟨buf, []⟩ false =
      ⟨⟨Mode.decode, [], [], tt + bs.length, (decodeRun t bs).2.1,
        (decodeRun t bs).2.2, rel⟩,
       ⟨buf ++ (decodeRun t bs).1, []⟩, none, [(Action.run, bs.length)]⟩ := by
  rcases bs with _ | ⟨q, qs⟩
  · exact absurd rfl hbs
  · cases hdr : (decodeRun t (q :: qs)).2.2 <;>
      simp [runLzma_eq_aux, runLzmaAux, Stream.AvailIn, code, Stream.Output,
            Sink.write, Ret.isErr, hdr]

theorem runLzma_decode_finish_ended (buf : List Nat) (tt rel : Nat) (t : Bool) :
    runLzma ⟨Mode.decode, [], [], tt, t, true, rel⟩ ⟨buf, []⟩ true =
      ⟨⟨Mode.decode, [], [], tt, t, true, rel⟩, ⟨buf, []⟩, none,
       [(Action.finish, 0)]⟩ := by
  simp [runLzma_eq_aux, runLzmaAux, Stream.AvailIn, code, Stream.Output,
        Sink.write, Ret.isErr]

theorem RemRepr_ne_nil {t : Bool} {rem Brest : List Nat}
    (h : RemRepr t rem Brest) : rem ≠ [] := by
  rcases h with ⟨-, hrem⟩ | ⟨-, b, B', -, hrem⟩ <;> subst hrem <;> simp

/-- How the decoder advances across one chunk of the remaining compressed
stream: taking any non-empty prefix of the remainder either consumes the
terminator exactly when the whole remainder was taken, or leaves a state
that again represents a suffix of the original bytes, the chunk's decoded
output accounting for the difference.  The last clause is the progress
fact: a chunk of at least two bytes (or any chunk in the middle of a
frame) decodes at least one byte. -/
theorem chunkStep :
    ∀ (Brest : List Nat) (t : Bool) (rem : List Nat) (n : Nat),
      RemRepr t rem Brest → 1 ≤ n →
      ((rem.drop n = [] →
          (decodeRun t (rem.take n)).2.2 = true ∧
          (decodeRun t (rem.take n)).1 = Brest) ∧
       (rem.drop n ≠ [] →
          (decodeRun t (rem.take n)).2.2 = false ∧
          ∃ Brest', RemRepr (decodeRun t (rem.take n)).2.1 (rem.drop n) Brest' ∧
            (decodeRun t (rem.take n)).1 ++ Brest' = Brest ∧
            ((t = true ∨ 2 ≤ n) → (decodeRun t (rem.take n)).1 ≠ []))) := by
  intro Brest
  induction Brest with
  | nil =>
    intro t rem n hrep hn
    rcases hrep with ⟨ht, hrem⟩ | ⟨-, b, B', hB, -⟩
    · subst ht
      subst hrem
      cases n with
      | zero => omega
      | succ m =>
        constructor
        · intro hdrop
          simp [encBytes, decodeRun]
        · intro hdrop
          simp [encBytes] at hdrop
    · exact absurd hB (by simp)
  | cons b B' ih =>
    intro t rem n hrep hn
    have htrue : ∀ (rem : List Nat) (n : Nat),
        rem = b :: (encBytes B' ++ [0]) → 1 ≤ n →
        ((rem.drop n = [] →
            (decodeRun true (rem.take n)).2.2 = true ∧
            (decodeRun true (rem.take n)).1 = b :: B') ∧
         (rem.drop n ≠ [] →
            (decodeRun true (rem.take n)).2.2 = false ∧
            ∃ Brest', RemRepr (decodeRun true (rem.take n)).2.1 (rem.drop n) Brest' ∧
              (decodeRun true (rem.take n)).1 ++ Brest' = b :: B' ∧
              (decodeRun true (rem.take n)).1 ≠ [])) := by
      intro rem n hrem hn
      subst hrem
      cases n with
      | zero => omega
      | succ m =>
        rcases Nat.eq_zero_or_pos m with hm0 | hmpos
        · subst hm0
          constructor
          · intro hdrop
            simp at hdrop
          · intro hdrop
            exact ⟨by simp [decodeRun], B', Or.inl ⟨by simp [decodeRun], by simp⟩,
              by simp [decodeRun], by simp [decodeRun]⟩
        · have hx := ih false (encBytes B' ++ [0]) m (Or.inl ⟨rfl, rfl⟩) hmpos
          constructor
          · intro hdrop
            rw [List.drop_succ_cons] at hdrop
            have h1 := hx.1 hdrop
            rw [List.take_succ_cons]
            simp [decodeRun, h1.1, h1.2]
          · intro hdrop
            rw [List.drop_succ_cons] at hdrop
            have h2 := hx.2 hdrop
            obtain ⟨he, Brest', hr, hcat, -⟩ := h2
            rw [List.take_succ_cons, List.drop_succ_cons]
            exact ⟨by simp [decodeRun, he], Brest', by simpa [decodeRun] using hr,
              by simp [decodeRun, hcat], by simp [decodeRun]⟩
    rcases hrep with ⟨ht, hrem⟩ | ⟨ht, b₀, B₀, hB, hrem⟩
    · -- t = false: the chunk starts at a frame tag
      subst ht
      subst hrem
      cases n with
      | zero => omega
      | succ m =>
        rcases Nat.eq_zero_or_pos m with hm0 | hmpos
        · subst hm0
          constructor
          · intro hdrop
            simp [encBytes] at hdrop
          · intro hdrop
            refine ⟨by simp [encBytes, decodeRun], b :: B',
              Or.inr ⟨by simp [encBytes, decodeRun], b, B', rfl, by simp [encBytes]⟩,
              by simp [encBytes, decodeRun], ?_⟩
            intro hor
            rcases hor with hor | hor
            · exact absurd hor (by simp)
            · omega
        · have hy := htrue (b :: (encBytes B' ++ [0])) m rfl hmpos
          constructor
          · intro hdrop
            have hdrop' : (b :: (encBytes B' ++ [0])).drop m = [] := by
              simpa [encBytes] using hdrop
            have h1 := hy.1 hdrop'
            simp only [encBytes, List.take_succ_cons, List.cons_append]
            simpa [decodeRun] using h1
          · intro hdrop
            have hdrop' : (b :: (encBytes B' ++ [0])).drop m ≠ [] := by
              simpa [encBytes] using hdrop
            have h2 := hy.2 hdrop'
            obtain ⟨he, Brest', hr, hcat, hne⟩ := h2
            refine ⟨?_, Brest', ?_, ?_, ?_⟩
            · simpa [encBytes, decodeRun] using he
            · simpa [encBytes, decodeRun] using hr
            · simpa [encBytes, decodeRun] using hcat
            · intro hor
              simpa [encBytes, decodeRun] using hne
    · -- t = true: the chunk starts at a pending data byte
      subst ht
      injection hB with hb hBs
      subst hb
      subst hBs
      have h := htrue rem n (by simpa using hrem) hn
      refine ⟨h.1, fun hd => ?_⟩
      obtain ⟨he, Brest', hr, hcat, hne⟩ := h.2 hd
      exact ⟨he, Brest', hr, hcat, fun _ => hne⟩

/-- One Read call under the Reader invariant: either everything has been
delivered and the call reports io.EOF, or the call delivers a non-empty
prefix and re-establishes the invariant on the rest. -/
theorem read_step (z : Reader) (Brest : List Nat) (L : Nat)
    (hinv : RInv z Brest) (hL : 2 ≤ L) :
    (z.buf = [] ∧ Brest = [] ∧
      (z.Read L).1 = [] ∧ (z.Read L).2.1 = some GoErr.ioEOF) ∨
    (∃ bs z' Brest', z.Read L = (bs, none, z') ∧ bs ≠ [] ∧ RInv z' Brest' ∧
      bs ++ z'.buf ++ Brest' = z.buf ++ Brest) := by
  have hL0 : ¬(L = 0) := by omega
  have hLpos : 0 < L := by omega
  obtain ⟨⟨m, ai, o, tt, tg, en, rel⟩, ⟨ev, lg⟩, buf, fin, le⟩ := z
  obtain ⟨hle, hmode, hai, hout, hcase⟩ := hinv
  replace hle : le = none := hle
  replace hmode : m = Mode.decode := hmode
  replace hai : ai = [] := hai
  replace hout : o = [] := hout
  subst hle
  subst hmode
  subst hai
  subst hout
  rcases hcase with ⟨hfin, hen, rem, hev, hrep⟩ | ⟨hen, hB, hev, hfin⟩ |
    ⟨hen, hB, hev, hfin⟩
  · -- mid-stream: the source still holds part of the compressed stream
    replace hfin : fin = false := hfin
    replace hen : en = false := hen
    replace hev : ev = [(rem, none)] := hev
    replace hrep : RemRepr tg rem Brest := hrep
    subst hfin
    subst hen
    subst hev
    by_cases hblt : buf.length < L
    · -- populate pulls and decodes one chunk
      have hrne : rem ≠ [] := RemRepr_ne_nil hrep
      have hcne : rem.take L ≠ [] := by
        simp only [ne_eq, List.take_eq_nil_iff]
        push_neg
        exact ⟨by omega, hrne⟩
      have hsrc : Source.read ⟨[(rem, none)], lg⟩ L =
          (rem.take L, none,
           ⟨if rem.drop L = [] then [] else [(rem.drop L, none)], lg ++ [L]⟩) := by
        simp only [Source.read]
        by_cases hrl : rem.length ≤ L
        · have hde : rem.drop L = [] := List.drop_of_length_le hrl
          simp [hrl, List.take_of_length_le hrl, hde]
        · have hdne : ¬(rem.drop L = []) := by
            rw [List.drop_eq_nil_iff]
            omega
          simp [hrl, hdne]
      have hpump := runLzma_decode_run tg (rem.take L) buf tt rel hcne
      have hpop :
          populateBuffer
            ⟨⟨Mode.decode, [], [], tt, tg, false, rel⟩, ⟨[(rem, none)], lg⟩,
             buf, false, none⟩ L
          = (none,
             ⟨⟨Mode.decode, [], [], tt + (rem.take L).length,
               (decodeRun tg (rem.take L)).2.1, (decodeRun tg (rem.take L)).2.2, rel⟩,
              ⟨if rem.drop L = [] then [] else [(rem.drop L, none)], lg ++ [L]⟩,
              buf ++ (decodeRun tg (rem.take L)).1, false, none⟩) := by
        simp only [populateBuffer, hsrc, Stream.SetInput]
        simp [hpump]
      by_cases hrd : rem.drop L = []
      · -- the chunk was the rest of the stream: the terminator is consumed
        have hch := (chunkStep Brest tg rem L hrep (by omega)).1 hrd
        by_cases hbB : buf ++ Brest = []
        · rw [List.append_eq_nil] at hbB
          obtain ⟨hb1, hb2⟩ := hbB
          subst hb1
          subst hb2
          left
          refine ⟨rfl, rfl, ?_, ?_⟩ <;>
            simp [Reader.Read, hL0, hLpos, hblt, hpop, bufRead, hch.1, hch.2, hrd]
        · right
          refine ⟨(buf ++ Brest).take L,
            ⟨⟨Mode.decode, [], [], tt + (rem.take L).length,
              (decodeRun tg (rem.take L)).2.1, true, rel⟩,
             ⟨[], lg ++ [L]⟩, (buf ++ Brest).drop L, false, none⟩, [],
            ?_, ?_, ?_, ?_⟩
          · simp [Reader.Read, hL0, hLpos, hblt, hpop, bufRead, hch.1, hch.2, hrd, hbB]
          · simp only [ne_eq, List.take_eq_nil_iff, hbB, or_false]
            omega
          · exact ⟨rfl, rfl, rfl, rfl, Or.inr (Or.inl ⟨rfl, rfl, rfl, rfl⟩)⟩
          · rw [List.take_append_drop, List.append_nil]
      · -- mid-stream chunk: the invariant continues with a shorter suffix
        have hch := (chunkStep Brest tg rem L hrep (by omega)).2 hrd
        obtain ⟨he, Brest', hr, hcat, hne⟩ := hch
        have hdne : (decodeRun tg (rem.take L)).1 ≠ [] := hne (Or.inr hL)
        have hbne : buf ++ (decodeRun tg (rem.take L)).1 ≠ [] := by
          simp [hdne]
        right
        refine ⟨(buf ++ (decodeRun tg (rem.take L)).1).take L,
          ⟨⟨Mode.decode, [], [], tt + (rem.take L).length,
            (decodeRun tg (rem.take L)).2.1, false, rel⟩,
           ⟨[(rem.drop L, none)], lg ++ [L]⟩,
           (buf ++ (decodeRun tg (rem.take L)).1).drop L, false, none⟩, Brest',
          ?_, ?_, ?_, ?_⟩
        · simp [Reader.Read, hL0, hLpos, hblt, hpop, bufRead, he, hrd, hbne]
        · simp only [ne_eq, List.take_eq_nil_iff, hbne, or_false]
          omega
        · exact ⟨rfl, rfl, rfl, rfl, Or.inl ⟨rfl, rfl, rem.drop L, rfl, hr⟩⟩
        · rw [List.take_append_drop, List.append_assoc, hcat]
    · -- the internal buffer already holds at least L bytes
      have hbne : buf ≠ [] := by
        intro h
        rw [h] at hblt
        simp at hblt
        omega
      right
      refine ⟨buf.take L,
        ⟨⟨Mode.decode, [], [], tt, tg, false, rel⟩, ⟨[(rem, none)], lg⟩,
         buf.drop L, false, none⟩, Brest, ?_, ?_, ?_, ?_⟩
      · simp [Reader.Read, hL0, hLpos, hblt, bufRead, hbne]
      · simp only [ne_eq, List.take_eq_nil_iff, hbne, or_false]
        omega
      · exact ⟨rfl, rfl, rfl, rfl, Or.inl ⟨rfl, rfl, rem, rfl, hrep⟩⟩
      · rw [List.take_append_drop]
  · -- the terminator has been consumed; upstream EOF not yet observed
    replace hen : en = true := hen
    replace hB : Brest = [] := hB
    replace hev : ev = [] := hev
    replace hfin : fin = false := hfin
    subst hen
    subst hB
    subst hev
    subst hfin
    by_cases hblt : buf.length < L
    · have hpop :
          populateBuffer
            ⟨⟨Mode.decode, [], [], tt, tg, true, rel⟩, ⟨[], lg⟩, buf, false, none⟩ L
          = (none,
             ⟨⟨Mode.decode, [], [], tt, tg, true, rel⟩, ⟨[], lg ++ [L]⟩,
              buf, true, none⟩) := by
        simp only [populateBuffer, Source.read, Stream.SetInput]
        simp [runLzma_decode_finish_ended]
      by_cases hbe : buf = []
      · left
        subst hbe
        exact ⟨rfl, rfl, by simp [Reader.Read, hL0, hLpos, hblt, hpop, bufRead],
          by simp [Reader.Read, hL0, hLpos, hblt, hpop, bufRead]⟩
      · right
        refine ⟨buf.take L,
          ⟨⟨Mode.decode, [], [], tt, tg, true, rel⟩, ⟨[], lg ++ [L]⟩,
           buf.drop L, true, none⟩, [], ?_, ?_, ?_, ?_⟩
        · simp [Reader.Read, hL0, hLpos, hblt, hpop, bufRead, hbe]
        · simp only [ne_eq, List.take_eq_nil_iff, hbe, or_false]
          omega
        · exact ⟨rfl, rfl, rfl, rfl, Or.inr (Or.inr ⟨rfl, rfl, rfl, rfl⟩)⟩
        · rw [List.take_append_drop, List.append_nil]
    · have hbne : buf ≠ [] := by
        intro h
        rw [h] at hblt
        simp at hblt
        omega
      right
      refine ⟨buf.take L,
        ⟨⟨Mode.decode, [], [], tt, tg, true, rel⟩, ⟨[], lg⟩,
         buf.drop L, false, none⟩, [], ?_, ?_, ?_, ?_⟩
      · simp [Reader.Read, hL0, hLpos, hblt, bufRead, hbne]
      · simp only [ne_eq, List.take_eq_nil_iff, hbne, or_false]
        omega
      · exact ⟨rfl, rfl, rfl, rfl, Or.inr (Or.inl ⟨rfl, rfl, rfl, rfl⟩)⟩
      · rw [List.take_append_drop, List.append_nil]
  · -- upstream EOF already latched in inputFinished
    replace hen : en = true := hen
    replace hB : Brest = [] := hB
    replace hev : ev = [] := hev
    replace hfin : fin = true := hfin
    subst hen
    subst hB
    subst hev
    subst hfin
    by_cases hblt : buf.length < L
    · have hpop :
          populateBuffer
            ⟨⟨Mode.decode, [], [], tt, tg, true, rel⟩, ⟨[], lg⟩, buf, true, none⟩ L
          = (none,
             ⟨⟨Mode.decode, [], [], tt, tg, true, rel⟩, ⟨[], lg⟩, buf, true, none⟩) := by
        simp [populateBuffer]
      by_cases hbe : buf = []
      · left
        subst hbe
        exact ⟨rfl, rfl, by simp [Reader.Read, hL0, hLpos, hblt, hpop, bufRead],
          by simp [Reader.Read, hL0, hLpos, hblt, hpop, bufRead]⟩
      · right
        refine ⟨buf.take L,
          ⟨⟨Mode.decode, [], [], tt, tg, true, rel⟩, ⟨[], lg⟩,
           buf.drop L, true, none⟩, [], ?_, ?_, ?_, ?_⟩
        · simp [Reader.Read, hL0, hLpos, hblt, hpop, bufRead, hbe]
        · simp only [ne_eq, List.take_eq_nil_iff, hbe, or_false]
          omega
        · exact ⟨rfl, rfl, rfl, rfl, Or.inr (Or.inr ⟨rfl, rfl, rfl, rfl⟩)⟩
        · rw [List.take_append_drop, List.append_nil]
    · have hbne : buf ≠ [] := by
        intro h
        rw [h] at hblt
        simp at hblt
        omega
      right
      refine ⟨buf.take L,
        ⟨⟨Mode.decode, [], [], tt, tg, true, rel⟩, ⟨[], lg⟩,
         buf.drop L, true, none⟩, [], ?_, ?_, ?_, ?_⟩
      · simp [Reader.Read, hL0, hLpos, hblt, bufRead, hbne]
      · simp only [ne_eq, List.take_eq_nil_iff, hbne, or_false]
        omega
      · exact ⟨rfl, rfl, rfl, rfl, Or.inr (Or.inr ⟨rfl, rfl, rfl, rfl⟩)⟩
      · rw [List.take_append_drop, List.append_nil]

/-- Reading to end of stream under the invariant yields exactly the
undelivered bytes, terminated by io.EOF. -/
theorem readAll_spec :
    ∀ (fuel : Nat) (z : Reader) (Brest : List Nat) (L : Nat),
      RInv z Brest → 2 ≤ L → z.buf.length + Brest.length + 1 ≤ fuel →
      readAll fuel z L = (z.buf ++ Brest, some GoErr.ioEOF) := by
  intro fuel
  induction fuel with
  | zero => intro z Brest L _ _ hf; omega
  | succ n ih =>
    intro z Brest L hinv hL hf
    rcases read_step z Brest L hinv hL with ⟨hbuf, hB, h1, h2⟩ |
      ⟨bs, z', Brest', heq, hne, hinv', hcat⟩
    · simp only [readAll, h2, h1]
      simp [hbuf, hB]
    · have hlen : bs.length + (z'.buf.length + Brest'.length)
          = z.buf.length + Brest.length := by
        have hl := congrArg List.length hcat
        simpa [List.length_append] using hl
      have hbs : 1 ≤ bs.length := by
        rcases Nat.eq_zero_or_pos bs.length with hz | hp
        · exact absurd (List.length_eq_zero.mp hz) hne
        · exact hp
      have hfn : z'.buf.length + Brest'.length + 1 ≤ n := by omega
      simp only [readAll, heq]
      rw [ih z' Brest' L hinv' hL hfn]
      rw [← List.append_assoc, hcat]

/-- The partial round trip the code does achieve: writing any byte
sequence B, split into any list of chunks, through a compressing Writer
over an error-free sink, then closing, produces a compressed stream;
feeding that stream back through a decompressing Reader and reading to end
of stream with any request size of at least two bytes delivers exactly B
followed by io.EOF, and the close reported no error.  The size bound
cannot be dropped: see the spurious-EOF theorem below, where a one-byte
read request makes the Reader end the stream early. -/
theorem round_trip (chunks : List (List Nat)) (L : Nat) (hL : 2 ≤ L) :
    (Writer.Close (writeList (NewWriter ⟨[], []⟩) chunks)).1 = none ∧
    readAll (chunks.flatten.length + 2)
      (NewReader ⟨[((Writer.Close (writeList (NewWriter ⟨[], []⟩) chunks)).2.w.bytes,
        none)], []⟩) L
      = (chunks.flatten, some GoErr.ioEOF) := by
  have hnw : NewWriter ⟨[], []⟩
      = ⟨⟨Mode.encode 6, [], [], 0, false, false, 0⟩, ⟨[], []⟩, none⟩ := by decide
  have hwl := writeList_encode 6 0 false false none chunks 0 []
  have hcl := Close_encode 6 (0 + chunks.flatten.length) 0 false false
    (encBytes chunks.flatten) none
  rw [hnw, hwl]
  simp only [List.nil_append] at hcl ⊢
  rw [hcl]
  refine ⟨rfl, ?_⟩
  have hinv : RInv (NewReader ⟨[(encBytes chunks.flatten ++ [0], none)], []⟩)
      chunks.flatten := by
    refine ⟨rfl, rfl, rfl, rfl,
      Or.inl ⟨rfl, rfl, encBytes chunks.flatten ++ [0], rfl, Or.inl ⟨rfl, rfl⟩⟩⟩
  have := readAll_spec (chunks.flatten.length + 2)
    (NewReader ⟨[(encBytes chunks.flatten ++ [0], none)], []⟩)
    chunks.flatten L hinv hL (by simp [NewReader])
  simpa [NewReader] using this

/-- The partial round trip applied at a concrete input: the bytes 2, 3, 4
written in two chunks compress and decompress back to themselves when read
with two-byte requests. -/
theorem round_trip_witness :
    (Writer.Close (writeList (NewWriter ⟨[], []⟩) [[2], [3, 4]])).1 = none ∧
    readAll ([[2], [3, 4]].flatten.length + 2)
      (NewReader ⟨[((Writer.Close (writeList (NewWriter ⟨[], []⟩)
        [[2], [3, 4]])).2.w.bytes, none)], []⟩) 2
      = ([[2], [3, 4]].flatten, some GoErr.ioEOF) :=
  round_trip [[2], [3, 4]] 2 (by decide)

/-- C1 fails on the code: the round trip is broken by the spurious-EOF
latch in Reader.Read.  Writing B = [5] and closing produces the compressed
stream [1, 5, 0]; reading it back with a one-byte request buffer makes the
first populateBuffer round pull a single compressed byte (a frame tag)
that decodes to zero output bytes, whereupon Read drains the still-empty
internal buffer, gets io.EOF from it, and stores that io.EOF in the sticky
latch — even though compressed data is still available upstream.  Reading
until end of stream therefore returns [] instead of B.  The final
conjuncts exhibit the mechanism: after the first Read the latch holds
io.EOF while the source still has pending events. -/
theorem round_trip_spurious_eof :
    (Writer.Close (writeList (NewWriter ⟨[], []⟩) [[5]])).1 = none ∧
    (Writer.Close (writeList (NewWriter ⟨[], []⟩) [[5]])).2.w.bytes = [1, 5, 0] ∧
    readAll 10 (NewReader ⟨[([1, 5, 0], none)], []⟩) 1 = ([], some GoErr.ioEOF) ∧
    (Reader.Read (NewReader ⟨[([1, 5, 0], none)], []⟩) 1).2.1 = some GoErr.ioEOF ∧
    (Reader.Read (NewReader ⟨[([1, 5, 0], none)], []⟩) 1).2.2.lastErr
      = some GoErr.ioEOF ∧
    (Reader.Read (NewReader ⟨[([1, 5, 0], none)], []⟩) 1).2.2.r.events
      = [([5, 0], none)] := by
  decide

end XZ
